import Mathlib

/-!
# catproccpuinfogrepmhz: sampling-and-statistics engine

A shallow embedding of `catproccpuinfogrepmhz.c` and the properties its
specification states about it.

Conventions of the embedding.

* A C array indexed by a core number or a ring slot is a function on `Nat`;
  a loop `for (i = 0; i < cpus; i++)` that only writes entry `i` is the
  pointwise update guarded by `i < cpus`, and a loop that carries a scalar is
  a recursion on the loop counter.
* `int` values are `Int`, `uint64_t` values are `Nat` below `2 ^ 64` with the
  wraparound written out, the counter `samples` is a `Nat` (its overflow
  after `2 ^ 31` ticks is not modelled).
* `float` and `double` values are rationals: every floating-point operation
  is read as the exact operation, so rounding error is not part of the model.
  The conversion `(int)x` is truncation toward zero, `ceil` is the ceiling.
* The text returned by `read_cpuinfo` is the list of its characters up to the
  terminating NUL.
-/

namespace CpuMhz

/-! ## Constants -/

/-- Fine ticks per coarse cycle (`#define SAMPLES_PER_SEC 10`). -/
def SAMPLES_PER_SEC : Nat := 10

/-- Capacity of the per-core ring (`#define SAMPLES_RING 50`). -/
def SAMPLES_RING : Nat := 50

/-- The C conversion `(int)x` of a floating value: truncation toward zero. -/
def float_to_int (q : ℚ) : Int := if 0 ≤ q then ⌊q⌋ else ⌈q⌉

/-! ## Ring statistics (`calc_ring_stats`) -/

/-- The inner loop of `calc_ring_stats` over one row `ring[i]`: the pair
`(max, avg)` after `j` iterations, started at `(0, 0)`. -/
def calc_ring_stats_loop (row : Nat → Int) : Nat → Int × ℚ
  | 0 => (0, 0)
  | j + 1 =>
    let (max, avg) := calc_ring_stats_loop row j
    ((if row j > max then row j else max), avg + (row j : ℚ))

/-- Function `calc_ring_stats(ring, maxes, avgs, cpus)`: the arrays `maxes` and
`avgs` after the call. -/
def calc_ring_stats (ring : Nat → Nat → Int) (maxes : Nat → Int) (avgs : Nat → ℚ)
    (cpus : Nat) : (Nat → Int) × (Nat → ℚ) :=
  (fun i => if i < cpus then (calc_ring_stats_loop (ring i) SAMPLES_RING).1 else maxes i,
   fun i => if i < cpus then (calc_ring_stats_loop (ring i) SAMPLES_RING).2 / (SAMPLES_RING : ℚ)
            else avgs i)

/-! ## Load classifier (`calc_loads`) -/

/-- The first loop of `calc_loads`: the running `max` after `i` iterations,
started at `-10e9`. -/
def calc_loads_max (avgs : Nat → ℚ) : Nat → ℚ
  | 0 => -10000000000
  | i + 1 =>
    let max := calc_loads_max avgs i
    if avgs i > max then avgs i else max

/-- The value `range = ceil(1 + (max - min_freq) / stages)` of `calc_loads`. -/
def calc_loads_range (min_freq : Int) (avgs : Nat → ℚ) (cpus : Nat) : ℚ :=
  let stages : ℚ := 5
  ((⌈1 + (calc_loads_max avgs cpus - (min_freq : ℚ)) / stages⌉ : Int) : ℚ)

/-- Function `calc_loads(min_freq, avgs, loads, cpus)`: the array `loads` after
the call. -/
def calc_loads (min_freq : Int) (avgs : Nat → ℚ) (loads : Nat → Int) (cpus : Nat) :
    Nat → Int :=
  let range := calc_loads_range min_freq avgs cpus
  fun i => if i < cpus then 1 + float_to_int ((avgs i - (min_freq : ℚ)) / range) else loads i

/-! ## The tick loop of `main` -/

/-- The frequency-path variables of `main`. The energy path and the printing
neither read nor write them and are left out of the state. -/
structure State where
  samples : Nat
  clocks : Nat → Int
  maxes : Nat → Int
  maxes_ring : Nat → Int
  ring : Nat → Nat → Int
  loads : Nat → Int
  avgs : Nat → ℚ
  avgs_ring : Nat → ℚ
  min_avg_freq : Int

/-- The variables of `main` when the outer loop is entered: the `memset`
arrays are zero and `min_avg_freq = 0xFFFF`. The arrays `clocks`,
`maxes_ring` and `avgs_ring` are written before they are read; they are
given the value zero. -/
def init : State where
  samples := 0
  clocks := fun _ => 0
  maxes := fun _ => 0
  maxes_ring := fun _ => 0
  ring := fun _ _ => 0
  loads := fun _ => 0
  avgs := fun _ => 0
  avgs_ring := fun _ => 0
  min_avg_freq := 0xFFFF

/-- One fine tick: `read_clocks` has filled `clocks`, then the loop over the
cores updates `maxes`, `avgs` and `ring`, then `samples++`. -/
def tick (cpus : Nat) (clocks : Nat → Int) (s : State) : State :=
  { s with
    clocks := fun cpu => if cpu < cpus then clocks cpu else s.clocks cpu
    maxes := fun cpu =>
      if cpu < cpus then (if s.maxes cpu < clocks cpu then clocks cpu else s.maxes cpu)
      else s.maxes cpu
    avgs := fun cpu =>
      if cpu < cpus then (s.avgs cpu * (s.samples : ℚ) + (clocks cpu : ℚ)) / ((s.samples : ℚ) + 1)
      else s.avgs cpu
    ring := fun cpu j =>
      if cpu < cpus ∧ j = s.samples % SAMPLES_RING then clocks cpu else s.ring cpu j
    samples := s.samples + 1 }

/-- The first `i` iterations of the fine-tick loop. The injected sample source
`clk t cpu` is the value `read_clocks` returns for core `cpu` at its call
number `t` (counted from zero over the whole run). -/
def ticks (cpus : Nat) (clk : Nat → Nat → Int) : Nat → State → State
  | 0, s => s
  | i + 1, s =>
    let s1 := ticks cpus clk i s
    tick cpus (clk s1.samples) s1

/-- The loop of `main` that lowers `min_avg_freq`: its value after `i`
iterations. -/
def min_avg_loop (avgs_ring : Nat → ℚ) (min_avg_freq : Int) : Nat → Int
  | 0 => min_avg_freq
  | i + 1 =>
    let m := min_avg_loop avgs_ring min_avg_freq i
    if avgs_ring i < (m : ℚ) then float_to_int (avgs_ring i) else m

/-- One coarse cycle of `main`: `SAMPLES_PER_SEC` fine ticks, then
`calc_ring_stats`, then, once `samples >= SAMPLES_RING`, the baseline update
and `calc_loads`. -/
def cycle (cpus : Nat) (clk : Nat → Nat → Int) (s : State) : State :=
  let s1 := ticks cpus clk SAMPLES_PER_SEC s
  let stats := calc_ring_stats s1.ring s1.maxes_ring s1.avgs_ring cpus
  let s2 := { s1 with maxes_ring := stats.1, avgs_ring := stats.2 }
  if s2.samples ≥ SAMPLES_RING then
    let m := min_avg_loop s2.avgs_ring s2.min_avg_freq cpus
    { s2 with min_avg_freq := m, loads := calc_loads m s2.avgs_ring s2.loads cpus }
  else s2

/-- The state of `main` after `k` coarse cycles. -/
def main_loop (cpus : Nat) (clk : Nat → Nat → Int) : Nat → State
  | 0 => init
  | k + 1 => cycle cpus clk (main_loop cpus clk k)

/-- The windowed maximum `calc_ring_stats` computes for core `i` from the ring
of state `s`. -/
def windowed_max (cpus : Nat) (s : State) (i : Nat) : Int :=
  (calc_ring_stats s.ring s.maxes_ring s.avgs_ring cpus).1 i

/-- The windowed average `calc_ring_stats` computes for core `i` from the ring
of state `s`. -/
def windowed_avg (cpus : Nat) (s : State) (i : Nat) : ℚ :=
  (calc_ring_stats s.ring s.maxes_ring s.avgs_ring cpus).2 i


/-! ## Energy counters and power (`init_power_draw`, `watts`) -/

/-- The value, as a C `int`, of the 32-bit pattern `n mod 2 ^ 32` (two's
complement). -/
def to_int32 (n : Nat) : Int :=
  if n % 2 ^ 32 < 2 ^ 31 then ((n % 2 ^ 32 : Nat) : Int) else ((n % 2 ^ 32 : Nat) : Int) - 2 ^ 32

/-- The energy unit `1.0 / (1 << ((unit >> 8) & 0x1F))` that `init_power_draw`
stores, for the value `unit` read from the power-unit register. The shift
`1 << k` is a shift of the `int` constant `1`; for `k = 31` the result `2 ^ 31`
is not an `int` value, and the 32-bit pattern the shift instruction leaves is
read back as an `int`. -/
def init_power_draw_energy_unit (unit : Nat) : ℚ :=
  1 / ((to_int32 (1 <<< ((unit >>> 8) &&& 0x1F)) : Int) : ℚ)

/-- The difference `a - b` of two `uint64_t` values. -/
def sub_uint64 (a b : Nat) : Nat := (a + (2 ^ 64 - b % 2 ^ 64)) % 2 ^ 64

/-- Function `watts(energy_unit, elapsed_usec, unit0, unit1)`. -/
def watts (energy_unit : ℚ) (elapsed_usec unit0 unit1 : Nat) : ℚ :=
  if unit0 = 0 ∨ unit1 = 0 ∨ elapsed_usec = 0 then 0
  else
    let delta := sub_uint64 unit0 unit1
    (delta : ℚ) * energy_unit / ((elapsed_usec : ℚ) / 1000000)

/-! ## Frequency sampler (`index_cpuinfo`, `read_clocks`) -/

/-- How a routine that may end the process comes out: it returns a value, it
calls `exit(1)` after its diagnostic, or it reads outside the string it was
given (undefined behaviour). -/
inductive Outcome (α : Type) where
  | ok (a : α)
  | exit
  | undefined
  deriving DecidableEq

/-- The string literal `"cpu MHz"` searched for by `index_cpuinfo`. -/
def marker_cpu_MHz : List Char := ['c', 'p', 'u', ' ', 'M', 'H', 'z']

/-- The string literal `"MHz"` searched for by `read_clocks`. -/
def marker_MHz : List Char := ['M', 'H', 'z']

/-- The library function `strstr`: the offset of the first occurrence of
`needle` in `haystack`, or `none` for the null pointer. -/
def strstr : List Char → List Char → Option Nat
  | [], needle => if needle = [] then some 0 else none
  | c :: cs, needle =>
    if needle.isPrefixOf (c :: cs) then some 0 else (strstr cs needle).map (· + 1)

/-- The library predicate `isdigit`. -/
def isdigit (c : Char) : Bool := 48 ≤ c.toNat && c.toNat ≤ 57

/-- The library predicate `isspace` (space, and the controls 9 to 13). -/
def isspace (c : Char) : Bool := c.toNat = 32 || (9 ≤ c.toNat && c.toNat ≤ 13)

/-- The digit loop of `atoi`: the accumulated value. -/
def atoi_digits : Nat → List Char → Nat
  | acc, [] => acc
  | acc, c :: cs => if isdigit c then atoi_digits (10 * acc + (c.toNat - 48)) cs else acc

/-- The result of `atoi` for a magnitude and a sign: undefined when the value
is not an `int`. -/
def atoi_result (negative : Bool) (v : Nat) : Outcome Int :=
  if negative then (if v ≤ 2 ^ 31 then .ok (-(v : Int)) else .undefined)
  else (if v < 2 ^ 31 then .ok (v : Int) else .undefined)

/-- The library function `atoi`: leading white space, an optional sign, then
decimal digits. -/
def atoi (s : List Char) : Outcome Int :=
  match s.dropWhile isspace with
  | [] => atoi_result false 0
  | c :: rest =>
    if c = '-' then atoi_result true (atoi_digits 0 rest)
    else if c = '+' then atoi_result false (atoi_digits 0 rest)
    else atoi_result false (atoi_digits 0 (c :: rest))

/-- The loop of `index_cpuinfo` with `left` iterations to go; `ix` is the
offset of the pointer `ix` from `cpuinfo`. -/
def index_cpuinfo_loop (cpuinfo : List Char) : Nat → Nat → Outcome (List Nat)
  | 0, _ => .ok []
  | left + 1, ix =>
    match strstr (cpuinfo.drop ix) marker_cpu_MHz with
    | none => .exit
    | some off =>
      match index_cpuinfo_loop cpuinfo left (ix + off + 1) with
      | .ok rest => .ok ((ix + off) :: rest)
      | .exit => .exit
      | .undefined => .undefined

/-- Function `index_cpuinfo(indexes, cpus)` on the text `cpuinfo` that
`read_cpuinfo` returned: the array `indexes`. -/
def index_cpuinfo (cpuinfo : List Char) (cpus : Nat) : Outcome (List Nat) :=
  index_cpuinfo_loop cpuinfo cpus 0

/-- The loop `while (!isdigit(*ix)) ix++`: the string from the first digit on,
or `none` when the scan passes the end of the string. -/
def skip_to_digit : List Char → Option (List Char)
  | [] => none
  | c :: cs => if isdigit c then some (c :: cs) else skip_to_digit cs

/-- The body of the loop of `read_clocks` for one core: the search starts at
`cpuinfo + index - cpus`. -/
def read_clock (cpuinfo : List Char) (cpus : Nat) (index : Nat) : Outcome Int :=
  if index < cpus then .undefined
  else
    match strstr (cpuinfo.drop (index - cpus)) marker_MHz with
    | none => .exit
    | some off =>
      match skip_to_digit (cpuinfo.drop (index - cpus + off)) with
      | none => .undefined
      | some s => atoi s

/-- The loop of `read_clocks` over the entries of `indexes` still to read. -/
def read_clocks_loop (cpuinfo : List Char) (cpus : Nat) : List Nat → Outcome (List Int)
  | [] => .ok []
  | index :: rest =>
    match read_clock cpuinfo cpus index with
    | .ok clock =>
      match read_clocks_loop cpuinfo cpus rest with
      | .ok clocks => .ok (clock :: clocks)
      | .exit => .exit
      | .undefined => .undefined
    | .exit => .exit
    | .undefined => .undefined

/-- Function `read_clocks(clocks, indexes, cpus)` on the text `cpuinfo` that
`read_cpuinfo` returned: the array `clocks`. -/
def read_clocks (cpuinfo : List Char) (indexes : List Nat) (cpus : Nat) : Outcome (List Int) :=
  read_clocks_loop cpuinfo cpus (indexes.take cpus)

/-! ### The sampler as the specification words it -/

/-- All offsets at which `needle` occurs in `text`, in increasing order;
`base` is the offset of the head of `text`. -/
def occurrences_from (needle : List Char) : List Char → Nat → List Nat
  | [], base => if needle = [] then [base] else []
  | c :: cs, base =>
    if needle.isPrefixOf (c :: cs) then base :: occurrences_from needle cs (base + 1)
    else occurrences_from needle cs (base + 1)

/-- The offsets of the occurrences of the marker `"cpu MHz"` in `text`; entry
`i` is the offset of occurrence number `i`. -/
def marker_offsets (text : List Char) : List Nat := occurrences_from marker_cpu_MHz text 0

/-- The value of a string of decimal digits. -/
def decimal_value (digits : List Char) : Nat :=
  digits.foldl (fun v c => 10 * v + (c.toNat - 48)) 0

/-- The integer part of the number that follows the marker at offset `p`: the
value of the first run of digits after the seven characters of the marker,
or `none` when no digit follows. -/
def number_after (text : List Char) (p : Nat) : Option Nat :=
  match (text.drop (p + 7)).dropWhile (fun c => !isdigit c) with
  | [] => none
  | c :: cs => some (decimal_value ((c :: cs).takeWhile isdigit))

/-! ## The invariant of the tick loop -/

/-- The invariant of the tick loop for the sample source `clk`: the cumulative
average times the sample count is the sum of the samples, the all-time
maximum is non-negative and bounds every ring slot, and each of the last
`SAMPLES_RING` samples sits in the slot given by its number. -/
structure TickInv (cpus : Nat) (clk : Nat → Nat → Int) (s : State) : Prop where
  avg_sum : ∀ cpu, cpu < cpus →
    s.avgs cpu * (s.samples : ℚ) = ∑ t in Finset.range s.samples, (clk t cpu : ℚ)
  max_nonneg : ∀ cpu, 0 ≤ s.maxes cpu
  ring_le_max : ∀ cpu j, s.ring cpu j ≤ s.maxes cpu
  ring_slot : ∀ cpu, cpu < cpus → ∀ t, t < s.samples → s.samples ≤ t + SAMPLES_RING →
    s.ring cpu (t % SAMPLES_RING) = clk t cpu
/-! ## Auxiliary facts -/

theorem float_to_int_mono {a b : ℚ} (h : a ≤ b) : float_to_int a ≤ float_to_int b := by
  unfold float_to_int
  split_ifs with ha hb hb
  · exact Int.floor_le_floor h
  · exact absurd (le_trans ha h) hb
  · have h1 : ⌈a⌉ ≤ 0 := Int.ceil_le.mpr (by push_cast; linarith)
    have h2 : (0 : Int) ≤ ⌊b⌋ := Int.floor_nonneg.mpr hb
    omega
  · exact Int.ceil_le_ceil h

theorem float_to_int_sub_one_lt (q : ℚ) : q - 1 < (float_to_int q : ℚ) := by
  unfold float_to_int
  split_ifs with h
  · exact Int.sub_one_lt_floor q
  · have := Int.le_ceil q
    linarith

theorem float_to_int_lt_add_one (q : ℚ) : (float_to_int q : ℚ) < q + 1 := by
  unfold float_to_int
  split_ifs with h
  · have := Int.floor_le q
    linarith
  · exact Int.ceil_lt_add_one q

theorem float_to_int_le_of_lt {q : ℚ} {m : Int} (h : q < (m : ℚ)) : float_to_int q ≤ m := by
  unfold float_to_int
  split_ifs with h0
  · have : ⌊q⌋ < m := Int.floor_lt.mpr h
    omega
  · exact Int.ceil_le.mpr h.le

theorem float_to_int_eq_zero {q : ℚ} (h1 : -1 < q) (h2 : q < 1) : float_to_int q = 0 := by
  unfold float_to_int
  split_ifs with h0
  · rw [Int.floor_eq_iff]
    constructor <;> push_cast <;> linarith
  · rw [Int.ceil_eq_iff]
    push_neg at h0
    constructor <;> push_cast <;> linarith

theorem ticks_samples (cpus : Nat) (clk : Nat → Nat → Int) (i : Nat) (s : State) :
    (ticks cpus clk i s).samples = s.samples + i := by
  induction i with
  | zero => rfl
  | succ i ih => simp [ticks, tick, ih]; omega

theorem ticks_loads (cpus : Nat) (clk : Nat → Nat → Int) (i : Nat) (s : State) :
    (ticks cpus clk i s).loads = s.loads := by
  induction i with
  | zero => rfl
  | succ i ih => simp [ticks, tick, ih]

theorem ticks_min_avg_freq (cpus : Nat) (clk : Nat → Nat → Int) (i : Nat) (s : State) :
    (ticks cpus clk i s).min_avg_freq = s.min_avg_freq := by
  induction i with
  | zero => rfl
  | succ i ih => simp [ticks, tick, ih]

theorem cycle_samples (cpus : Nat) (clk : Nat → Nat → Int) (s : State) :
    (cycle cpus clk s).samples = s.samples + SAMPLES_PER_SEC := by
  unfold cycle
  simp only []
  split_ifs <;> simp [ticks_samples]

theorem main_loop_samples (cpus : Nat) (clk : Nat → Nat → Int) (k : Nat) :
    (main_loop cpus clk k).samples = SAMPLES_PER_SEC * k := by
  induction k with
  | zero => rfl
  | succ k ih => simp [main_loop, cycle_samples, ih]; ring

theorem min_avg_loop_lt (a : Nat → ℚ) (m0 : Int) (n : Nat) :
    ∀ i, i < n → (min_avg_loop a m0 n : ℚ) < a i + 1 := by
  induction n with
  | zero => intro i hi; omega
  | succ n ih =>
    intro i hi
    simp only [min_avg_loop]
    split_ifs with hlt
    · rcases Nat.lt_succ_iff_lt_or_eq.mp hi with h | h
      · have h1 := ih i h
        have h2 : float_to_int (a n) ≤ min_avg_loop a m0 n := float_to_int_le_of_lt hlt
        have h3 : ((float_to_int (a n) : Int) : ℚ) ≤ (min_avg_loop a m0 n : ℚ) := by
          exact_mod_cast h2
        linarith
      · subst h
        exact float_to_int_lt_add_one _
    · rcases Nat.lt_succ_iff_lt_or_eq.mp hi with h | h
      · exact ih i h
      · subst h
        push_neg at hlt
        linarith

theorem le_calc_loads_max (a : Nat → ℚ) (n : Nat) :
    ∀ i, i < n → a i ≤ calc_loads_max a n := by
  induction n with
  | zero => intro i hi; omega
  | succ n ih =>
    intro i hi
    simp only [calc_loads_max]
    rcases Nat.lt_succ_iff_lt_or_eq.mp hi with h | h
    · have := ih i h
      split_ifs with hgt
      · linarith
      · exact this
    · subst h
      split_ifs with hgt
      · exact le_refl _
      · push_neg at hgt
        exact hgt

/-- Whenever the baseline is below every average plus one, as the baseline
loop of `main` guarantees, `range` is at least `1` and at least
`1 + (max - min_freq) / 5`. -/
theorem calc_loads_range_ge (m : Int) (a : Nat → ℚ) (cpus i : Nat) (hi : i < cpus)
    (hm : (m : ℚ) < a i + 1) :
    1 ≤ calc_loads_range m a cpus ∧
      1 + (calc_loads_max a cpus - (m : ℚ)) / 5 ≤ calc_loads_range m a cpus := by
  have hmax := le_calc_loads_max a cpus i hi
  have hceil := Int.le_ceil (1 + (calc_loads_max a cpus - (m : ℚ)) / 5)
  have hpos : (0 : ℚ) < 1 + (calc_loads_max a cpus - (m : ℚ)) / 5 := by linarith
  have h1 : (0 : Int) < ⌈1 + (calc_loads_max a cpus - (m : ℚ)) / 5⌉ := Int.ceil_pos.mpr hpos
  have h2 : (1 : Int) ≤ ⌈1 + (calc_loads_max a cpus - (m : ℚ)) / 5⌉ := h1
  have h3 : (1 : ℚ) ≤ ((⌈1 + (calc_loads_max a cpus - (m : ℚ)) / 5⌉ : Int) : ℚ) := by
    exact_mod_cast h2
  exact ⟨h3, hceil⟩

theorem calc_loads_mono (m : Int) (a : Nat → ℚ) (l : Nat → Int) (cpus i j : Nat)
    (hi : i < cpus) (hj : j < cpus) (hm : (m : ℚ) < a i + 1) (hij : a i ≤ a j) :
    calc_loads m a l cpus i ≤ calc_loads m a l cpus j := by
  obtain ⟨hr1, _⟩ := calc_loads_range_ge m a cpus i hi hm
  have hpos : (0 : ℚ) < calc_loads_range m a cpus := by linarith
  have hq : (a i - (m : ℚ)) / calc_loads_range m a cpus
      ≤ (a j - (m : ℚ)) / calc_loads_range m a cpus :=
    div_le_div_of_nonneg_right (by linarith) hpos.le
  have := float_to_int_mono hq
  unfold calc_loads
  simp only [if_pos hi, if_pos hj]
  omega

theorem calc_loads_eq_one (m : Int) (a : Nat → ℚ) (l : Nat → Int) (cpus i : Nat)
    (hi : i < cpus) (hm : float_to_int (a i) = m) :
    calc_loads m a l cpus i = 1 := by
  have h1 := float_to_int_lt_add_one (a i)
  have h2 := float_to_int_sub_one_lt (a i)
  rw [hm] at h1 h2
  obtain ⟨hr1, _⟩ := calc_loads_range_ge m a cpus i hi h1
  have hpos : (0 : ℚ) < calc_loads_range m a cpus := by linarith
  have hz : float_to_int ((a i - (m : ℚ)) / calc_loads_range m a cpus) = 0 := by
    apply float_to_int_eq_zero
    · rw [lt_div_iff₀ hpos]
      nlinarith
    · rw [div_lt_iff₀ hpos]
      nlinarith
  unfold calc_loads
  simp only [if_pos hi, hz]
  rfl

/-- What a coarse cycle that ends with at least `SAMPLES_RING` samples leaves
behind: the stored averages are the windowed averages of the ring, the
baseline is the old baseline lowered by the baseline loop, and the loads are
those of `calc_loads`. -/
theorem cycle_classified (cpus : Nat) (clk : Nat → Nat → Int) (s : State)
    (hs : SAMPLES_RING ≤ (cycle cpus clk s).samples) :
    (cycle cpus clk s).avgs_ring = windowed_avg cpus (cycle cpus clk s) ∧
    (cycle cpus clk s).min_avg_freq
      = min_avg_loop (cycle cpus clk s).avgs_ring s.min_avg_freq cpus ∧
    (cycle cpus clk s).loads
      = calc_loads (cycle cpus clk s).min_avg_freq (cycle cpus clk s).avgs_ring s.loads cpus := by
  have hs' : SAMPLES_RING ≤ s.samples + SAMPLES_PER_SEC := by
    rw [cycle_samples] at hs
    exact hs
  have hc : (ticks cpus clk SAMPLES_PER_SEC s).samples ≥ SAMPLES_RING := by
    rw [ticks_samples]
    exact hs'
  unfold cycle
  simp only [if_pos hc, ticks_loads, ticks_min_avg_freq]
  refine ⟨?_, trivial, trivial⟩
  funext i
  unfold windowed_avg calc_ring_stats
  by_cases hi : i < cpus <;> simp [hi]

theorem cycle_warmup (cpus : Nat) (clk : Nat → Nat → Int) (s : State)
    (hs : (cycle cpus clk s).samples < SAMPLES_RING) :
    (cycle cpus clk s).loads = s.loads ∧ (cycle cpus clk s).min_avg_freq = s.min_avg_freq := by
  have hs' : s.samples + SAMPLES_PER_SEC < SAMPLES_RING := by
    rw [cycle_samples] at hs
    exact hs
  have hc : ¬ (ticks cpus clk SAMPLES_PER_SEC s).samples ≥ SAMPLES_RING := by
    rw [ticks_samples]
    omega
  unfold cycle
  simp only [if_neg hc, ticks_loads, ticks_min_avg_freq]
  exact ⟨trivial, trivial⟩

/-! ## The invariant holds along every run -/

theorem tickInv_init (cpus : Nat) (clk : Nat → Nat → Int) : TickInv cpus clk init where
  avg_sum := by intro cpu _; simp [init]
  max_nonneg := by intro cpu; simp [init]
  ring_le_max := by intro cpu j; simp [init]
  ring_slot := by intro cpu _ t ht; simp [init] at ht

theorem tickInv_tick (cpus : Nat) (clk : Nat → Nat → Int) (s : State)
    (h : TickInv cpus clk s) : TickInv cpus clk (tick cpus (clk s.samples) s) where
  avg_sum := by
    intro cpu hc
    have hne : ((s.samples : ℚ) + 1) ≠ 0 := by positivity
    simp only [tick, if_pos hc, Finset.sum_range_succ, ← h.avg_sum cpu hc]
    push_cast
    field_simp
  max_nonneg := by
    intro cpu
    have := h.max_nonneg cpu
    simp only [tick]
    split_ifs <;> omega
  ring_le_max := by
    intro cpu j
    have h1 := h.ring_le_max cpu j
    simp only [tick]
    split_ifs <;> omega
  ring_slot := by
    intro cpu hc t ht hwin
    simp only [tick] at ht hwin ⊢
    by_cases hlast : t = s.samples
    · subst hlast
      simp [hc]
    · have hlt : t < s.samples := by omega
      have hslot : t % SAMPLES_RING ≠ s.samples % SAMPLES_RING := by
        unfold SAMPLES_RING at hwin ⊢
        omega
      have hold := h.ring_slot cpu hc t hlt (by omega)
      simp [hslot, hold]

theorem tickInv_ticks (cpus : Nat) (clk : Nat → Nat → Int) (i : Nat) (s : State)
    (h : TickInv cpus clk s) : TickInv cpus clk (ticks cpus clk i s) := by
  induction i with
  | zero => exact h
  | succ i ih => exact tickInv_tick cpus clk _ ih

theorem tickInv_cycle (cpus : Nat) (clk : Nat → Nat → Int) (s : State)
    (h : TickInv cpus clk s) : TickInv cpus clk (cycle cpus clk s) := by
  have h1 := tickInv_ticks cpus clk SAMPLES_PER_SEC s h
  unfold cycle
  simp only []
  split_ifs
  · exact ⟨h1.avg_sum, h1.max_nonneg, h1.ring_le_max, h1.ring_slot⟩
  · exact ⟨h1.avg_sum, h1.max_nonneg, h1.ring_le_max, h1.ring_slot⟩

theorem tickInv_main_loop (cpus : Nat) (clk : Nat → Nat → Int) (k : Nat) :
    TickInv cpus clk (main_loop cpus clk k) := by
  induction k with
  | zero => exact tickInv_init cpus clk
  | succ k ih => exact tickInv_cycle cpus clk _ ih

/-- The invariant holds after every fine tick: `j` ticks into the coarse cycle
that follows `k` completed ones. -/
theorem tickInv_reach (cpus : Nat) (clk : Nat → Nat → Int) (k j : Nat) :
    TickInv cpus clk (ticks cpus clk j (main_loop cpus clk k)) :=
  tickInv_ticks cpus clk j _ (tickInv_main_loop cpus clk k)

theorem reach_samples (cpus : Nat) (clk : Nat → Nat → Int) (k j : Nat) :
    (ticks cpus clk j (main_loop cpus clk k)).samples = SAMPLES_PER_SEC * k + j := by
  rw [ticks_samples, main_loop_samples]

theorem calc_ring_stats_loop_max_le (row : Nat → Int) (M : Int) (h0 : 0 ≤ M)
    (hrow : ∀ j, row j ≤ M) (n : Nat) : (calc_ring_stats_loop row n).1 ≤ M := by
  induction n with
  | zero => exact h0
  | succ n ih =>
    simp only [calc_ring_stats_loop]
    split_ifs
    · exact hrow n
    · exact ih

theorem calc_ring_stats_loop_le_max (row : Nat → Int) (n : Nat) :
    ∀ j, j < n → row j ≤ (calc_ring_stats_loop row n).1 := by
  induction n with
  | zero => intro j hj; omega
  | succ n ih =>
    intro j hj
    simp only [calc_ring_stats_loop]
    rcases Nat.lt_succ_iff_lt_or_eq.mp hj with h | h
    · have := ih j h
      split_ifs <;> omega
    · subst h
      split_ifs <;> omega

theorem calc_ring_stats_loop_max_mem (row : Nat → Int) (n : Nat) :
    (calc_ring_stats_loop row n).1 = 0 ∨ ∃ j, j < n ∧ (calc_ring_stats_loop row n).1 = row j := by
  induction n with
  | zero => exact Or.inl rfl
  | succ n ih =>
    simp only [calc_ring_stats_loop]
    split_ifs
    · exact Or.inr ⟨n, Nat.lt_succ_self n, rfl⟩
    · rcases ih with h | ⟨j, hj, h⟩
      · exact Or.inl h
      · exact Or.inr ⟨j, Nat.lt_succ_of_lt hj, h⟩

theorem calc_ring_stats_loop_sum (row : Nat → Int) (n : Nat) :
    (calc_ring_stats_loop row n).2 = ∑ j in Finset.range n, (row j : ℚ) := by
  induction n with
  | zero => rfl
  | succ n ih => simp only [calc_ring_stats_loop, Finset.sum_range_succ, ih]

/-- Summing a function of the ring slot over the slots, taken in the order in
which the last `SAMPLES_RING` samples were written. -/
theorem sum_slots_rotate (f : Nat → ℚ) (n : Nat) :
    ∑ j in Finset.range SAMPLES_RING, f j
      = ∑ i in Finset.range SAMPLES_RING, f ((n + i) % SAMPLES_RING) := by
  symm
  apply Finset.sum_nbij' (fun i => (n + i) % SAMPLES_RING)
    (fun j => (j + SAMPLES_RING - n % SAMPLES_RING) % SAMPLES_RING)
  · intro i _
    simp only [Finset.mem_range, SAMPLES_RING]
    omega
  · intro j _
    simp only [Finset.mem_range, SAMPLES_RING]
    omega
  · intro i hi
    simp only [Finset.mem_range, SAMPLES_RING] at hi ⊢
    omega
  · intro j hj
    simp only [Finset.mem_range, SAMPLES_RING] at hj ⊢
    omega
  · intro i _
    rfl

/-! ## Auxiliary facts on the text routines -/

theorem strstr_eq_some (needle : List Char) (hne : needle ≠ []) :
    ∀ (hay : List Char) (k : Nat), needle.isPrefixOf (hay.drop k) = true →
      (∀ j, j < k → needle.isPrefixOf (hay.drop j) = false) → strstr hay needle = some k := by
  intro hay
  induction hay with
  | nil =>
    intro k hk _
    simp only [List.drop_nil] at hk
    cases needle with
    | nil => exact absurd rfl hne
    | cons a as => simp [List.isPrefixOf] at hk
  | cons c cs ih =>
    intro k hk hfirst
    cases k with
    | zero =>
      simp only [List.drop_zero] at hk
      simp [strstr, hk]
    | succ k =>
      have h0 := hfirst 0 (Nat.succ_pos k)
      simp only [List.drop_zero] at h0
      have hk' : needle.isPrefixOf (cs.drop k) = true := by simpa using hk
      have hrec := ih k hk' (fun j hj => by simpa using hfirst (j + 1) (Nat.succ_lt_succ hj))
      simp [strstr, h0, hrec]

/-- The first occurrence found by `strstr` heads the list of occurrences, and
the remaining occurrences are those of the text after it. -/
theorem strstr_occurrences (needle : List Char) (hne : needle ≠ []) :
    ∀ (l : List Char) (base : Nat),
      (strstr l needle = none ∧ occurrences_from needle l base = []) ∨
      (∃ off, strstr l needle = some off ∧
        occurrences_from needle l base
          = (base + off) :: occurrences_from needle (l.drop (off + 1)) (base + off + 1)) := by
  intro l
  induction l with
  | nil =>
    intro base
    left
    simp [strstr, occurrences_from, hne]
  | cons c cs ih =>
    intro base
    by_cases hp : needle.isPrefixOf (c :: cs) = true
    · right
      refine ⟨0, ?_, ?_⟩
      · simp [strstr, hp]
      · simp [occurrences_from, hp]
    · rcases ih (base + 1) with ⟨hn, ho⟩ | ⟨off, hs, ho⟩
      · left
        simp [strstr, occurrences_from, hp, hn, ho]
      · right
        refine ⟨off + 1, ?_, ?_⟩
        · simp [strstr, hp, hs]
        · simp only [occurrences_from, hp, ho, List.drop_succ_cons]
          have e1 : base + 1 + off = base + (off + 1) := by omega
          have e2 : base + 1 + off + 1 = base + (off + 1) + 1 := by omega
          simp [e1]

theorem marker_cpu_MHz_ne_nil : marker_cpu_MHz ≠ [] := by decide

theorem marker_MHz_ne_nil : marker_MHz ≠ [] := by decide

theorem index_cpuinfo_loop_eq (text : List Char) :
    ∀ (left ix : Nat),
      left ≤ (occurrences_from marker_cpu_MHz (text.drop ix) ix).length →
      index_cpuinfo_loop text left ix
        = .ok ((occurrences_from marker_cpu_MHz (text.drop ix) ix).take left) := by
  intro left
  induction left with
  | zero => intro ix _; simp [index_cpuinfo_loop]
  | succ left ih =>
    intro ix hlen
    rcases strstr_occurrences marker_cpu_MHz marker_cpu_MHz_ne_nil (text.drop ix) ix with
      ⟨_, ho⟩ | ⟨off, hs, ho⟩
    · rw [ho] at hlen
      simp at hlen
    · have hd : (text.drop ix).drop (off + 1) = text.drop (ix + off + 1) := by
        rw [List.drop_drop]
        congr 1
      rw [hd] at ho
      rw [ho] at hlen ⊢
      have hlen' : left ≤ (occurrences_from marker_cpu_MHz (text.drop (ix + off + 1))
          (ix + off + 1)).length := by
        simpa using hlen
      simp [index_cpuinfo_loop, hs, ih (ix + off + 1) hlen']

theorem index_cpuinfo_eq (text : List Char) (n : Nat) (h : n ≤ (marker_offsets text).length) :
    index_cpuinfo text n = .ok ((marker_offsets text).take n) := by
  have := index_cpuinfo_loop_eq text n 0 (by simpa [marker_offsets] using h)
  simpa [index_cpuinfo, marker_offsets] using this

theorem occurrence_is_match (needle : List Char) :
    ∀ (l : List Char) (base p : Nat), p ∈ occurrences_from needle l base →
      ∃ k, p = base + k ∧ needle.isPrefixOf (l.drop k) = true := by
  intro l
  induction l with
  | nil =>
    intro base p hp
    by_cases hn : needle = []
    · subst hn
      simp [occurrences_from] at hp
      exact ⟨0, by omega, by simp [List.isPrefixOf]⟩
    · simp [occurrences_from, hn] at hp
  | cons c cs ih =>
    intro base p hp
    by_cases hpre : needle.isPrefixOf (c :: cs) = true
    · simp only [occurrences_from, hpre, if_true, List.mem_cons] at hp
      rcases hp with rfl | hp
      · exact ⟨0, rfl, by simpa using hpre⟩
      · obtain ⟨k, hk, hk'⟩ := ih (base + 1) p hp
        exact ⟨k + 1, by omega, by simpa using hk'⟩
    · simp only [occurrences_from, hpre] at hp
      obtain ⟨k, hk, hk'⟩ := ih (base + 1) p hp
      exact ⟨k + 1, by omega, by simpa using hk'⟩

theorem marker_at_offset (text : List Char) (p : Nat) (hp : p ∈ marker_offsets text) :
    marker_cpu_MHz.isPrefixOf (text.drop p) = true := by
  obtain ⟨k, hk, hk'⟩ := occurrence_is_match marker_cpu_MHz text 0 p hp
  have : p = k := by omega
  subst this
  exact hk'

/-- The list `occurrences_from` holds every offset at which the needle
occurs. -/
theorem match_is_occurrence (needle : List Char) (hne : needle ≠ []) :
    ∀ (l : List Char) (base k : Nat), needle.isPrefixOf (l.drop k) = true →
      base + k ∈ occurrences_from needle l base := by
  intro l
  induction l with
  | nil =>
    intro base k hk
    simp only [List.drop_nil] at hk
    cases needle with
    | nil => exact absurd rfl hne
    | cons a as => simp [List.isPrefixOf] at hk
  | cons c cs ih =>
    intro base k hk
    cases k with
    | zero =>
      simp only [List.drop_zero] at hk
      simp [occurrences_from, hk]
    | succ k =>
      have hk' : needle.isPrefixOf (cs.drop k) = true := by simpa using hk
      have hmem := ih (base + 1) k hk'
      have e : base + 1 + k = base + (k + 1) := by omega
      rw [e] at hmem
      by_cases hp : needle.isPrefixOf (c :: cs) = true
      · simp only [occurrences_from, hp, if_true]
        exact List.mem_cons_of_mem _ hmem
      · simp only [occurrences_from, hp]
        exact hmem

/-- The offsets listed by `marker_offsets` are exactly the offsets at which
the text reads `"cpu MHz"`. -/
theorem mem_marker_offsets_iff (text : List Char) (p : Nat) :
    p ∈ marker_offsets text ↔ marker_cpu_MHz.isPrefixOf (text.drop p) = true := by
  constructor
  · exact marker_at_offset text p
  · intro h
    have := match_is_occurrence marker_cpu_MHz marker_cpu_MHz_ne_nil text 0 p h
    simpa [marker_offsets] using this

theorem skip_to_digit_eq (l : List Char) :
    skip_to_digit l
      = match l.dropWhile (fun c => !isdigit c) with
        | [] => none
        | c :: cs => some (c :: cs) := by
  induction l with
  | nil => rfl
  | cons c cs ih =>
    by_cases hd : isdigit c = true
    · simp [skip_to_digit, List.dropWhile, hd]
    · simp only [Bool.not_eq_true] at hd
      simp [skip_to_digit, List.dropWhile, hd, ih]

theorem dropWhile_head_digit (l : List Char) (c : Char) (cs : List Char)
    (h : l.dropWhile (fun c => !isdigit c) = c :: cs) : isdigit c = true := by
  induction l with
  | nil => simp at h
  | cons a as ih =>
    by_cases hd : isdigit a = true
    · simp [List.dropWhile, hd] at h
      rw [← h.1]
      exact hd
    · simp only [Bool.not_eq_true] at hd
      simp [List.dropWhile, hd] at h
      exact ih h

theorem atoi_digits_eq (l : List Char) :
    ∀ acc, atoi_digits acc l
      = (l.takeWhile isdigit).foldl (fun v c => 10 * v + (c.toNat - 48)) acc := by
  induction l with
  | nil => intro acc; rfl
  | cons c cs ih =>
    intro acc
    by_cases hd : isdigit c = true
    · simp [atoi_digits, List.takeWhile, hd, ih]
    · simp only [Bool.not_eq_true] at hd
      simp [atoi_digits, List.takeWhile, hd]

theorem isdigit_not_isspace (c : Char) (h : isdigit c = true) :
    isspace c = false ∧ c ≠ '-' ∧ c ≠ '+' := by
  unfold isdigit at h
  simp only [Bool.and_eq_true, decide_eq_true_eq] at h
  refine ⟨?_, ?_, ?_⟩
  · unfold isspace
    simp only [Bool.or_eq_false_iff, Bool.and_eq_false_iff, decide_eq_false_iff_not]
    omega
  · rintro rfl
    revert h
    decide
  · rintro rfl
    revert h
    decide

theorem atoi_of_digit (c : Char) (cs : List Char) (hc : isdigit c = true)
    (hv : decimal_value ((c :: cs).takeWhile isdigit) < 2 ^ 31) :
    atoi (c :: cs) = .ok ((decimal_value ((c :: cs).takeWhile isdigit) : Nat) : Int) := by
  obtain ⟨hs, hm, hp⟩ := isdigit_not_isspace c hc
  have hval : atoi_digits 0 (c :: cs) = decimal_value ((c :: cs).takeWhile isdigit) := by
    rw [atoi_digits_eq]
    rfl
  unfold atoi
  simp only [List.dropWhile, hs, if_neg hm, if_neg hp, hval]
  unfold atoi_result
  rw [if_neg (by decide), if_pos hv]

theorem marker_tail_match (t : List Char) :
    marker_MHz.isPrefixOf ((marker_cpu_MHz ++ t).drop 4) = true := by
  simp [marker_MHz, marker_cpu_MHz, List.isPrefixOf]

theorem marker_head_no_match (t : List Char) (i : Nat) (hi : i < 4) :
    marker_MHz.isPrefixOf ((marker_cpu_MHz ++ t).drop i) = false := by
  have hcases : i = 0 ∨ i = 1 ∨ i = 2 ∨ i = 3 := by omega
  rcases hcases with rfl | rfl | rfl | rfl <;>
    simp [marker_MHz, marker_cpu_MHz, List.isPrefixOf]

theorem skip_marker_tail (t : List Char) :
    skip_to_digit ((marker_cpu_MHz ++ t).drop 4) = skip_to_digit ((marker_cpu_MHz ++ t).drop 7) := by
  simp [marker_cpu_MHz, skip_to_digit, isdigit]

/-- One core of `read_clocks`, when the search start lies inside the text and
no `"MHz"` starts between it and the marker at `p`: the result is the number
after the marker. -/
theorem read_clock_eq (text : List Char) (n p v : Nat) (hroom : n ≤ p)
    (hmark : marker_cpu_MHz.isPrefixOf (text.drop p) = true)
    (hclean : ∀ j, j < n → marker_MHz.isPrefixOf (text.drop (p - n + j)) = false)
    (hnum : number_after text p = some v) (hv : v < 2 ^ 31) :
    read_clock text n p = .ok (v : Int) := by
  obtain ⟨t, ht⟩ := List.isPrefixOf_iff_prefix.mp hmark
  have hdrop : ∀ i, text.drop (p + i) = (marker_cpu_MHz ++ t).drop i := by
    intro i
    rw [ht, List.drop_drop]
  have hfound : strstr (text.drop (p - n)) marker_MHz = some (n + 4) := by
    apply strstr_eq_some marker_MHz marker_MHz_ne_nil
    · rw [List.drop_drop, show p - n + (n + 4) = p + 4 by omega, hdrop 4]
      exact marker_tail_match t
    · intro j hj
      rw [List.drop_drop]
      by_cases hjn : j < n
      · exact hclean j hjn
      · rw [show p - n + j = p + (j - n) by omega, hdrop (j - n)]
        exact marker_head_no_match t (j - n) (by omega)
  have hskip : skip_to_digit (text.drop (p - n + (n + 4))) = skip_to_digit (text.drop (p + 7)) := by
    rw [show p - n + (n + 4) = p + 4 by omega, hdrop 4, hdrop 7]
    exact skip_marker_tail t
  unfold number_after at hnum
  unfold read_clock
  rw [if_neg (by omega), hfound]
  simp only [hskip, skip_to_digit_eq]
  cases hrest : (text.drop (p + 7)).dropWhile (fun c => !isdigit c) with
  | nil => rw [hrest] at hnum; simp at hnum
  | cons c cs =>
    rw [hrest] at hnum
    simp only [Option.some.injEq] at hnum
    have hc := dropWhile_head_digit _ c cs hrest
    simp only []
    rw [← hnum] at hv ⊢
    exact atoi_of_digit c cs hc hv

theorem read_clocks_loop_eq (text : List Char) (n : Nat) (f : Nat → Int) :
    ∀ (l : List Nat), (∀ p, p ∈ l → read_clock text n p = .ok (f p)) →
      read_clocks_loop text n l = .ok (l.map f) := by
  intro l
  induction l with
  | nil => intro _; rfl
  | cons p ps ih =>
    intro h
    have h1 := h p (List.mem_cons_self p ps)
    have h2 := ih (fun q hq => h q (List.mem_cons_of_mem p hq))
    simp [read_clocks_loop, h1, h2]

/-! ## Load classifier: claims C2, C3, C4, C10 -/

/-- C3, refuted as stated. Two cores read 1000 MHz for the first 50 ticks;
afterwards core 0 reads 3000 MHz and core 1 reads 4000 MHz. At the sixth
coarse cycle core 0 has the minimum windowed average of the current window
(1400 against 1600), the baseline is still 1000, and core 0 is at level 4. -/
theorem slowest_core_not_level_one :
    SAMPLES_RING ≤
        (main_loop 2 (fun t c => if t < 50 then 1000 else if c = 0 then 3000 else 4000) 6).samples ∧
    windowed_avg 2
        (main_loop 2 (fun t c => if t < 50 then 1000 else if c = 0 then 3000 else 4000) 6) 0
      = 1400 ∧
    windowed_avg 2
        (main_loop 2 (fun t c => if t < 50 then 1000 else if c = 0 then 3000 else 4000) 6) 1
      = 1600 ∧
    (main_loop 2 (fun t c => if t < 50 then 1000 else if c = 0 then 3000 else 4000) 6).min_avg_freq
      = 1000 ∧
    (main_loop 2 (fun t c => if t < 50 then 1000 else if c = 0 then 3000 else 4000) 6).loads 0
      = 4 := by
  decide!

/-- C3, amended. At every classification pass the baseline is the running
value `min_avg_freq`; every core whose windowed average, truncated to an
integer, equals that baseline is assigned load level 1. -/
theorem baseline_core_level_one (cpus : Nat) (clk : Nat → Nat → Int) (k i : Nat) (hi : i < cpus)
    (hs : SAMPLES_RING ≤ (main_loop cpus clk k).samples)
    (hbase : float_to_int (windowed_avg cpus (main_loop cpus clk k) i)
      = (main_loop cpus clk k).min_avg_freq) :
    (main_loop cpus clk k).loads i = 1 := by
  cases k with
  | zero => exact absurd hs (by simp [main_loop, init, SAMPLES_RING])
  | succ k =>
    obtain ⟨havg, _, hloads⟩ := cycle_classified cpus clk (main_loop cpus clk k) hs
    have hbase' : float_to_int ((cycle cpus clk (main_loop cpus clk k)).avgs_ring i)
        = (cycle cpus clk (main_loop cpus clk k)).min_avg_freq := by
      rw [havg]
      exact hbase
    show (cycle cpus clk (main_loop cpus clk k)).loads i = 1
    rw [hloads]
    exact calc_loads_eq_one _ _ _ cpus i hi hbase'

/-- Witness of the amended C3: four cores at a constant 2000 MHz; after 50
ticks the baseline is 2000 and core 0 is at level 1. -/
theorem baseline_core_level_one_witness :
    (main_loop 4 (fun _ _ => 2000) 5).min_avg_freq = 2000 ∧
      (main_loop 4 (fun _ _ => 2000) 5).loads 0 = 1 :=
  ⟨by decide!,
   baseline_core_level_one 4 (fun _ _ => 2000) 5 0 (by decide) (by decide) (by decide!)⟩

/-- C4. At every classification pass, for cores `a` and `b`: if the windowed
average of `a` is at least that of `b`, the load level of `a` is at least the
load level of `b`. -/
theorem load_level_monotone (cpus : Nat) (clk : Nat → Nat → Int) (k a b : Nat)
    (ha : a < cpus) (hb : b < cpus)
    (hs : SAMPLES_RING ≤ (main_loop cpus clk k).samples)
    (hab : windowed_avg cpus (main_loop cpus clk k) b
      ≤ windowed_avg cpus (main_loop cpus clk k) a) :
    (main_loop cpus clk k).loads b ≤ (main_loop cpus clk k).loads a := by
  cases k with
  | zero => exact absurd hs (by simp [main_loop, init, SAMPLES_RING])
  | succ k =>
    obtain ⟨havg, hmin, hloads⟩ := cycle_classified cpus clk (main_loop cpus clk k) hs
    have hab' : (cycle cpus clk (main_loop cpus clk k)).avgs_ring b
        ≤ (cycle cpus clk (main_loop cpus clk k)).avgs_ring a := by
      rw [havg]
      exact hab
    show (cycle cpus clk (main_loop cpus clk k)).loads b
      ≤ (cycle cpus clk (main_loop cpus clk k)).loads a
    rw [hloads]
    exact calc_loads_mono _ _ _ cpus b a hb ha
      (by rw [hmin]; exact min_avg_loop_lt _ _ cpus b hb) hab'

/-- Witness of C4: three cores with distinct sample streams, seventh coarse
cycle, cores 2 and 0. -/
theorem load_level_monotone_witness :
    (main_loop 3 (fun t c => 1000 + ((t * 7 + c * 1300) % 3000 : Nat)) 7).loads 0
      ≤ (main_loop 3 (fun t c => 1000 + ((t * 7 + c * 1300) % 3000 : Nat)) 7).loads 2 :=
  load_level_monotone 3 (fun t c => 1000 + ((t * 7 + c * 1300) % 3000 : Nat)) 7 2 0
    (by decide) (by decide) (by decide) (by decide!)

/-- C10. At every coarse cycle at which fewer than 50 samples have been
recorded, classification has not run: the load level of every core is 0 and
the baseline still has its initial value. -/
theorem warmup_loads_zero (cpus : Nat) (clk : Nat → Nat → Int) (k i : Nat)
    (hs : (main_loop cpus clk k).samples < SAMPLES_RING) :
    (main_loop cpus clk k).loads i = 0 ∧ (main_loop cpus clk k).min_avg_freq = 0xFFFF := by
  induction k with
  | zero => exact ⟨rfl, rfl⟩
  | succ k ih =>
    have hk : (main_loop cpus clk k).samples < SAMPLES_RING := by
      have h := hs
      simp only [main_loop, cycle_samples] at h
      omega
    obtain ⟨hl, hm⟩ := cycle_warmup cpus clk (main_loop cpus clk k) hs
    show (cycle cpus clk (main_loop cpus clk k)).loads i = 0 ∧
      (cycle cpus clk (main_loop cpus clk k)).min_avg_freq = 0xFFFF
    rw [hl, hm]
    exact ih hk

/-- Witness of C10: four cores, fourth coarse cycle (40 samples), core 2. -/
theorem warmup_loads_zero_witness :
    (main_loop 4 (fun t c => 800 + 100 * (c : Int) + (t : Int)) 4).samples = 40 ∧
      (main_loop 4 (fun t c => 800 + 100 * (c : Int) + (t : Int)) 4).loads 2 = 0 :=
  ⟨by decide,
   (warmup_loads_zero 4 (fun t c => 800 + 100 * (c : Int) + (t : Int)) 4 2 (by decide)).1⟩

/-! ## Ring statistics and running statistics: claims C5, C6, C7 -/

/-- C5. After every fine tick, for every core, the windowed maximum that
`calc_ring_stats` computes over the ring is at most the all-time maximum
kept by the tick loop. -/
theorem windowed_max_le_all_time_max (cpus : Nat) (clk : Nat → Nat → Int) (k j cpu : Nat)
    (hc : cpu < cpus) :
    windowed_max cpus (ticks cpus clk j (main_loop cpus clk k)) cpu
      ≤ (ticks cpus clk j (main_loop cpus clk k)).maxes cpu := by
  have h := tickInv_reach cpus clk k j
  unfold windowed_max calc_ring_stats
  simp only [if_pos hc]
  exact calc_ring_stats_loop_max_le _ _ (h.max_nonneg cpu) (h.ring_le_max cpu) SAMPLES_RING

/-- Witness of C5: two cores, a falling sample stream, 13 fine ticks. -/
theorem windowed_max_le_all_time_max_witness :
    windowed_max 2 (ticks 2 (fun t c => 3000 - 10 * (t : Int) + (c : Int)) 3
        (main_loop 2 (fun t c => 3000 - 10 * (t : Int) + (c : Int)) 1)) 1
      ≤ (ticks 2 (fun t c => 3000 - 10 * (t : Int) + (c : Int)) 3
        (main_loop 2 (fun t c => 3000 - 10 * (t : Int) + (c : Int)) 1)).maxes 1 :=
  windowed_max_le_all_time_max 2 (fun t c => 3000 - 10 * (t : Int) + (c : Int)) 1 3 1 (by decide)

/-- C7. Once a core has recorded `n = 10 k + j >= 50` non-negative samples, its
ring holds exactly the 50 most recent ones: sample `n - 50 + i` sits in slot
`(n + i) mod 50`, and these slots are all the slots. The windowed average is
the arithmetic mean of the last 50 samples and the windowed maximum is their
maximum. -/
theorem ring_is_last_window (cpus : Nat) (clk : Nat → Nat → Int) (k j cpu : Nat)
    (hc : cpu < cpus) (hn : SAMPLES_RING ≤ SAMPLES_PER_SEC * k + j)
    (hpos : ∀ t, 0 ≤ clk t cpu) :
    (ticks cpus clk j (main_loop cpus clk k)).samples = SAMPLES_PER_SEC * k + j ∧
    (∀ i, i < SAMPLES_RING →
      (ticks cpus clk j (main_loop cpus clk k)).ring cpu
          ((SAMPLES_PER_SEC * k + j + i) % SAMPLES_RING)
        = clk (SAMPLES_PER_SEC * k + j - SAMPLES_RING + i) cpu) ∧
    (∀ slot, slot < SAMPLES_RING → ∃ i, i < SAMPLES_RING ∧
      slot = (SAMPLES_PER_SEC * k + j + i) % SAMPLES_RING) ∧
    windowed_avg cpus (ticks cpus clk j (main_loop cpus clk k)) cpu
      = (∑ i in Finset.range SAMPLES_RING,
          (clk (SAMPLES_PER_SEC * k + j - SAMPLES_RING + i) cpu : ℚ))
        / (SAMPLES_RING : ℚ) ∧
    (∃ i, i < SAMPLES_RING ∧
      windowed_max cpus (ticks cpus clk j (main_loop cpus clk k)) cpu
        = clk (SAMPLES_PER_SEC * k + j - SAMPLES_RING + i) cpu) ∧
    (∀ i, i < SAMPLES_RING →
      clk (SAMPLES_PER_SEC * k + j - SAMPLES_RING + i) cpu
        ≤ windowed_max cpus (ticks cpus clk j (main_loop cpus clk k)) cpu) := by
  have hinv := tickInv_reach cpus clk k j
  have hsamp := reach_samples cpus clk k j
  generalize ticks cpus clk j (main_loop cpus clk k) = s at hinv hsamp ⊢
  generalize SAMPLES_PER_SEC * k + j = n at hn hsamp ⊢
  have hslot : ∀ i, i < SAMPLES_RING →
      s.ring cpu ((n + i) % SAMPLES_RING) = clk (n - SAMPLES_RING + i) cpu := by
    intro i hi
    have h := hinv.ring_slot cpu hc (n - SAMPLES_RING + i)
      (by rw [hsamp]; unfold SAMPLES_RING at hn hi ⊢; omega)
      (by rw [hsamp]; unfold SAMPLES_RING at hn hi ⊢; omega)
    have e : (n - SAMPLES_RING + i) % SAMPLES_RING = (n + i) % SAMPLES_RING := by
      unfold SAMPLES_RING at hn hi ⊢
      omega
    rw [e] at h
    exact h
  have hcover : ∀ slot, slot < SAMPLES_RING → ∃ i, i < SAMPLES_RING ∧
      slot = (n + i) % SAMPLES_RING := by
    intro slot hslt
    refine ⟨(slot + SAMPLES_RING - n % SAMPLES_RING) % SAMPLES_RING, ?_, ?_⟩
    · unfold SAMPLES_RING
      omega
    · unfold SAMPLES_RING at hslt ⊢
      omega
  have hmax : windowed_max cpus s cpu = (calc_ring_stats_loop (s.ring cpu) SAMPLES_RING).1 := by
    unfold windowed_max calc_ring_stats
    simp only [if_pos hc]
  have havg : windowed_avg cpus s cpu
      = (calc_ring_stats_loop (s.ring cpu) SAMPLES_RING).2 / (SAMPLES_RING : ℚ) := by
    unfold windowed_avg calc_ring_stats
    simp only [if_pos hc]
  have hle : ∀ i, i < SAMPLES_RING →
      clk (n - SAMPLES_RING + i) cpu ≤ windowed_max cpus s cpu := by
    intro i hi
    rw [hmax, ← hslot i hi]
    exact calc_ring_stats_loop_le_max _ _ _ (Nat.mod_lt _ (by decide))
  refine ⟨hsamp, hslot, hcover, ?_, ?_, hle⟩
  · rw [havg, calc_ring_stats_loop_sum, sum_slots_rotate _ n]
    congr 1
    apply Finset.sum_congr rfl
    intro i hi
    rw [hslot i (Finset.mem_range.mp hi)]
  · rcases calc_ring_stats_loop_max_mem (s.ring cpu) SAMPLES_RING with h0 | ⟨slot, hslt, hm⟩
    · refine ⟨0, by decide, ?_⟩
      have h1 := hle 0 (by decide)
      have h2 := hpos (n - SAMPLES_RING + 0)
      rw [hmax, h0] at h1
      rw [hmax, h0]
      omega
    · obtain ⟨i, hi, he⟩ := hcover slot hslt
      refine ⟨i, hi, ?_⟩
      rw [hmax, hm, he]
      exact hslot i hi

/-- Witness of C7: one core reading `1000 + t` at tick `t`; after 63 samples
the window is the samples 13 to 62 and the windowed average is their mean. -/
theorem ring_is_last_window_witness :
    windowed_avg 1
        (ticks 1 (fun t _ => 1000 + (t : Int)) 3 (main_loop 1 (fun t _ => 1000 + (t : Int)) 6)) 0
      = (∑ i in Finset.range SAMPLES_RING,
          (((fun t _ => 1000 + (t : Int)) (SAMPLES_PER_SEC * 6 + 3 - SAMPLES_RING + i) 0 : Int) : ℚ))
        / (SAMPLES_RING : ℚ) :=
  (ring_is_last_window 1 (fun t _ => 1000 + (t : Int)) 6 3 0 (by decide) (by decide)
    (fun t => by positivity)).2.2.2.1

/-! ## Frequency sampler: claim C8 -/

/-- C8, refuted as stated. In the first text every one of the four markers is
followed by a number, the search for core 3 starts four characters before
its marker, finds the stray `MHz` there and returns the 9 that follows it
instead of the 4 after the marker. In the second text the marker of the only
core is at offset 0, so the search would start before the text. -/
theorem sampler_misreads :
    index_cpuinfo ("    cpu MHz 1 cpu MHz 2 cpu MHz 3 MHz9cpu MHz 4").toList 4
      = .ok [4, 14, 24, 38] ∧
    (marker_offsets ("    cpu MHz 1 cpu MHz 2 cpu MHz 3 MHz9cpu MHz 4").toList).map
        (number_after ("    cpu MHz 1 cpu MHz 2 cpu MHz 3 MHz9cpu MHz 4").toList)
      = [some 1, some 2, some 3, some 4] ∧
    read_clocks ("    cpu MHz 1 cpu MHz 2 cpu MHz 3 MHz9cpu MHz 4").toList [4, 14, 24, 38] 4
      = .ok [1, 2, 3, 9] ∧
    index_cpuinfo ("cpu MHz : 3400.000").toList 1 = .ok [0] ∧
    read_clocks ("cpu MHz : 3400.000").toList [0] 1 = .undefined := by
  decide!

/-- C8, amended. Let `text0` hold at least `n` markers `"cpu MHz"` and let
`text1` have its first `n` markers at the same offsets. If each of these
offsets is at least `n`, no `"MHz"` starts in the `n` characters before it in
`text1`, and a number below `2 ^ 31` follows it in `text1`, then
`index_cpuinfo` returns these offsets and `read_clocks` returns one integer
per core, the one for core `i` being the integer part of the number after
marker number `i`. -/
theorem sampler_reads_marker_numbers (text0 text1 : List Char) (n : Nat)
    (hocc : n ≤ (marker_offsets text0).length)
    (hlayout : (marker_offsets text1).take n = (marker_offsets text0).take n)
    (hroom : ∀ p, p ∈ (marker_offsets text0).take n → n ≤ p)
    (hclean : ∀ p, p ∈ (marker_offsets text0).take n →
      ∀ j, j < n → marker_MHz.isPrefixOf (text1.drop (p - n + j)) = false)
    (hnum : ∀ p, p ∈ (marker_offsets text0).take n →
      ∃ v, number_after text1 p = some v ∧ v < 2 ^ 31) :
    index_cpuinfo text0 n = .ok ((marker_offsets text0).take n) ∧
    ((marker_offsets text0).take n).length = n ∧
    read_clocks text1 ((marker_offsets text0).take n) n
      = .ok (((marker_offsets text0).take n).map
          (fun p => (((number_after text1 p).getD 0 : Nat) : Int))) := by
  refine ⟨index_cpuinfo_eq text0 n hocc, by simp [hocc], ?_⟩
  unfold read_clocks
  rw [List.take_take, Nat.min_self]
  apply read_clocks_loop_eq
  intro p hp
  obtain ⟨v, hv, hlt⟩ := hnum p hp
  have hmem : p ∈ marker_offsets text1 := by
    have : p ∈ (marker_offsets text1).take n := by rw [hlayout]; exact hp
    exact List.mem_of_mem_take this
  rw [hv]
  exact read_clock_eq text1 n p v (hroom p hp) (marker_at_offset text1 p hmem)
    (hclean p hp) hv hlt

/-- Witness of the amended C8: two cores, the text read again with other
frequencies at the same offsets. -/
theorem sampler_reads_marker_numbers_witness :
    index_cpuinfo
        ("processor : 0 model name : AMD cpu MHz : 3400.123 cache processor : 1 cpu MHz : 800.000 x").toList
        2
      = .ok [31, 70] ∧
    read_clocks
        ("processor : 0 model name : AMD cpu MHz : 2200.500 cache processor : 1 cpu MHz : 900.000 x").toList
        [31, 70] 2
      = .ok [2200, 900] := by
  have e : (marker_offsets
      ("processor : 0 model name : AMD cpu MHz : 3400.123 cache processor : 1 cpu MHz : 800.000 x").toList).take
        2 = [31, 70] := by decide
  have h := sampler_reads_marker_numbers
    ("processor : 0 model name : AMD cpu MHz : 3400.123 cache processor : 1 cpu MHz : 800.000 x").toList
    ("processor : 0 model name : AMD cpu MHz : 2200.500 cache processor : 1 cpu MHz : 900.000 x").toList
    2 (by decide) (by decide) (by decide) (by decide)
    (by
      intro p hp
      rw [e] at hp
      simp only [List.mem_cons, List.mem_singleton, List.not_mem_nil, or_false] at hp
      rcases hp with rfl | rfl
      · exact ⟨2200, by decide, by decide⟩
      · exact ⟨900, by decide, by decide⟩)
  rw [e] at h
  exact ⟨h.1, h.2.2.trans (by decide)⟩

/-! ## Energy and power: claims C1, C9 -/

theorem sub_uint64_eq_emod (a b : Nat) (hb : b < 2 ^ 64) :
    ((sub_uint64 a b : Nat) : Int) = ((a : Int) - (b : Int)) % 2 ^ 64 := by
  unfold sub_uint64
  rw [Nat.mod_eq_of_lt hb]
  push_cast
  omega

/-- C1. For 64-bit snapshots `current`, `previous` and any energy unit and
elapsed time: `watts` is 0 when `current = 0`, `previous = 0` or
`elapsed_usec = 0`; otherwise it is the modular difference
`(current - previous) mod 2 ^ 64` times the unit, divided by the elapsed
seconds. The modular difference is `current - previous` when there was no
wraparound and `current + 2 ^ 64 - previous` when `current < previous`. -/
theorem watts_spec (energy_unit : ℚ) (elapsed_usec current previous : Nat)
    (hc : current < 2 ^ 64) (hp : previous < 2 ^ 64) :
    ((current = 0 ∨ previous = 0 ∨ elapsed_usec = 0) →
      watts energy_unit elapsed_usec current previous = 0) ∧
    (current ≠ 0 → previous ≠ 0 → elapsed_usec ≠ 0 →
      watts energy_unit elapsed_usec current previous
        = (((((current : Int) - (previous : Int)) % 2 ^ 64 : Int) : ℚ)) * energy_unit
          / ((elapsed_usec : ℚ) / 10 ^ 6)) ∧
    (previous ≤ current →
      ((current : Int) - (previous : Int)) % 2 ^ 64 = ((current - previous : Nat) : Int)) ∧
    (current < previous →
      ((current : Int) - (previous : Int)) % 2 ^ 64 = ((current + 2 ^ 64 - previous : Nat) : Int)) := by
  refine ⟨?_, ?_, ?_, ?_⟩
  · intro h
    unfold watts
    rw [if_pos h]
  · intro h1 h2 h3
    unfold watts
    rw [if_neg (by tauto)]
    simp only []
    rw [← sub_uint64_eq_emod current previous hp]
    norm_num
  · intro h
    omega
  · intro h
    omega

/-- Witness of C1: unit 0.125, previous 1000, current 1500, one second elapsed
give 62.5 watts. -/
theorem watts_spec_witness : watts (1 / 8) 1000000 1500 1000 = 125 / 2 := by
  rw [(watts_spec (1 / 8) 1000000 1500 1000 (by decide) (by decide)).2.1
    (by decide) (by decide) (by decide)]
  norm_num

theorem shift_mask_eq (unit : Nat) : (unit >>> 8) &&& 0x1F = unit / 256 % 32 := by
  rw [Nat.shiftRight_eq_div_pow]
  exact Nat.and_pow_two_sub_one_eq_mod (unit / 2 ^ 8) 5

/-- For every exponent `k` below 31 the energy unit is `2 ^ (-k)`. -/
theorem energy_unit_below_31 (unit : Nat) (hk : (unit >>> 8) &&& 0x1F ≠ 31) :
    init_power_draw_energy_unit unit = 1 / 2 ^ ((unit >>> 8) &&& 0x1F) := by
  have hlt : (unit >>> 8) &&& 0x1F < 31 := by
    rw [shift_mask_eq] at hk ⊢
    omega
  unfold init_power_draw_energy_unit
  generalize (unit >>> 8) &&& 0x1F = k at hlt
  have hpow : 2 ^ k < 2 ^ 31 := Nat.pow_lt_pow_right (by decide) hlt
  have hsmall : (1 <<< k) % 2 ^ 32 = 2 ^ k := by
    rw [Nat.one_shiftLeft]
    exact Nat.mod_eq_of_lt (by omega)
  unfold to_int32
  rw [hsmall, if_pos hpow]
  push_cast
  rfl

/-- C9 at the exponent 31. For the register value `0x1F00` the exponent is 31,
the shift `1 << 31` leaves the `int` value `-2 ^ 31`, and the energy unit
comes out as `-2 ^ (-31)` instead of `2 ^ (-31)`. -/
theorem energy_unit_exponent_31 :
    (0x1F00 >>> 8) &&& 0x1F = 31 ∧
    init_power_draw_energy_unit 0x1F00 = -(1 / 2 ^ 31) ∧
    init_power_draw_energy_unit 0x1F00 ≠ 1 / 2 ^ 31 := by
  decide!
end CpuMhz
